import Mathlib

/-!
Shallow embedding of the real-time websocket hub of taskflow-go
(internal/websocket/hub.go and internal/websocket/client.go).

Modelling conventions:
* `uuid.UUID` values are modelled as `Nat` (only equality is ever used on them);
  the zero value `uuid.Nil` is `0`.
* Go channels are modelled as FIFO lists together with their capacity:
  a buffered channel of capacity `k` accepts a non-blocking send
  (`select`/`default`) iff its current length is `< k`; a blocking send is an
  unconditional append.  A `close` sets a flag (and bumps a counter, so that a
  second `close` — a runtime panic in Go — is observable in the state).
* The per-client `send chan []byte` (capacity 256) lives in a `Conn` record;
  the hub state carries the list of all `Conn`s, keyed by the `Client` value
  (Go keys these structures by pointer identity; the `cid` field stands for
  that identity, so distinct connections are distinct `Client` values).
* Go `map` operations are modelled on association lists: lookup finds the
  first matching key, insert replaces the first matching key (or appends),
  delete removes every matching key (a Go map can never hold a duplicate key,
  so on every state reachable from a real map these coincide).
* The hub dispatcher (`Hub.Run`) serialises register/unregister/broadcast
  processing, and each room runs its own fan-out loop; the interleaving of
  these loops is modelled by the `Op` step relation: each `Op` is one
  dispatcher- or room-loop iteration, applied atomically.
* JSON serialisation (`json.Marshal`) of an in-memory `Message` never fails in
  the source for the values actually built there, so fan-out carries the
  `Message` value itself where Go carries its serialised bytes.
-/

namespace Websocket

/-- MessageType mirrors the Go `MessageType` string constants. -/
inductive MessageType
  | taskUpdate
  | taskCreate
  | taskDelete
  | notification
  | userJoined
  | userLeft
  | typing
  | ping
  | pong
  | error
deriving DecidableEq, Repr

/-- Payload stands for the opaque `Data interface{}` field of a message: the
hub never inspects it; the only payloads the hub itself builds are the
join/leave user info map and the error text map. -/
inductive Payload
  | userInfo (userID : Nat) (userName : String)
  | errText (text : String)
  | raw (n : Nat)
deriving DecidableEq, Repr

/-- Message mirrors the Go `Message` struct (field `Type` is spelled `ty`,
`Type` not being a usable identifier). The `Meta` field is never read or
written by the hub or client code and is omitted. -/
structure Message where
  ty : MessageType
  data : Option Payload
  UserID : Nat
  TenantID : Nat
  Timestamp : Nat
  MessageID : Nat
deriving DecidableEq, Repr

/-- Client mirrors the identity fields of the Go `Client` struct; `cid`
stands for the pointer identity of the Go object (two browser tabs of the
same user are two `Client`s differing only in `cid`). -/
structure Client where
  cid : Nat
  UserID : Nat
  UserName : String
  TenantID : Nat
  Role : String
deriving DecidableEq, Repr

/-- Conn is the state of one client's outbound channel `send chan []byte`
(capacity 256): its queued messages, whether it has been closed, and how many
times `close` was called on it (a second close panics in Go). -/
structure Conn where
  client : Client
  send : List Message
  closed : Bool
  closes : Nat
deriving DecidableEq, Repr

/-- TenantRoom mirrors the Go struct: the member set `clients` (a
`map[*Client]bool`, modelled as a list of distinct clients) and the room's
buffered broadcast channel (capacity 256), modelled as a FIFO list. -/
structure TenantRoom where
  TenantID : Nat
  clients : List Client
  broadcast : List Message
deriving DecidableEq, Repr

/-- Hub state: the `tenants map[uuid.UUID]*TenantRoom` registry plus the
states of all client outbound channels. -/
structure Hub where
  tenants : List (Nat × TenantRoom)
  conns : List Conn
deriving DecidableEq, Repr

/-- Capacity of a client's `send` channel (`make(chan []byte, 256)`). -/
def sendCap : Nat := 256

/-- Capacity of a room's broadcast channel (`make(chan *Message, 256)`). -/
def roomCap : Nat := 256

/-- Lookup in the `tenants` map. -/
def findRoom : List (Nat × TenantRoom) → Nat → Option TenantRoom
  | [], _ => none
  | (t, r) :: ts, tid => if t = tid then some r else findRoom ts tid

/-- Insert or replace in the `tenants` map. -/
def setRoom : List (Nat × TenantRoom) → Nat → TenantRoom → List (Nat × TenantRoom)
  | [], tid, r => [(tid, r)]
  | (t, r0) :: ts, tid, r => if t = tid then (tid, r) :: ts else (t, r0) :: setRoom ts tid r

/-- Delete from the `tenants` map. -/
def eraseRoom : List (Nat × TenantRoom) → Nat → List (Nat × TenantRoom)
  | [], _ => []
  | (t, r) :: ts, tid => if t = tid then eraseRoom ts tid else (t, r) :: eraseRoom ts tid

/-- Lookup the channel state of a client. -/
def findConn : List Conn → Client → Option Conn
  | [], _ => none
  | e :: es, c => if e.client = c then some e else findConn es c

/-- Update the channel state of a client. -/
def updateConn (f : Conn → Conn) (c : Client) : List Conn → List Conn
  | [] => []
  | e :: es => if e.client = c then f e :: updateConn f c es else e :: updateConn f c es

/-- Non-blocking successful send on a client's channel: append one message. -/
def enqueueConn (m : Message) (c : Client) (es : List Conn) : List Conn :=
  updateConn (fun e => { e with send := e.send ++ [m] }) c es

/-- Model of `close(client.send)`. -/
def closeConn (c : Client) (es : List Conn) : List Conn :=
  updateConn (fun e => { e with closed := true, closes := e.closes + 1 }) c es

/-- Creation of a client's channel (`make(chan []byte, 256)` in
`HandleWebSocket`); recorded at registration time in the model. -/
def insertConn (c : Client) (es : List Conn) : List Conn :=
  match findConn es c with
  | some _ => es
  | none => es ++ [{ client := c, send := [], closed := false, closes := 0 }]

/-- Model of `room.clients[client] = true` on the member map. -/
def insertClient (c : Client) (l : List Client) : List Client :=
  if c ∈ l then l else c :: l

/-- Model of `delete(room.clients, client)` on the member map. -/
def removeClient (c : Client) : List Client → List Client
  | [] => []
  | x :: xs => if x = c then removeClient c xs else x :: removeClient c xs

/-- The `UserJoined` message synthesized by `Hub.registerClient`. -/
def joinMessage (c : Client) (now mid : Nat) : Message :=
  { ty := .userJoined, data := some (.userInfo c.UserID c.UserName),
    UserID := c.UserID, TenantID := c.TenantID, Timestamp := now, MessageID := mid }

/-- The `UserLeft` message synthesized by `Hub.unregisterClient`. -/
def leaveMessage (c : Client) (now mid : Nat) : Message :=
  { ty := .userLeft, data := some (.userInfo c.UserID c.UserName),
    UserID := c.UserID, TenantID := c.TenantID, Timestamp := now, MessageID := mid }

/-- The error reply built by `Client.sendError`. -/
def errorMessage (c : Client) (text : String) (now mid : Nat) : Message :=
  { ty := .error, data := some (.errText text),
    UserID := c.UserID, TenantID := c.TenantID, Timestamp := now, MessageID := mid }

/-- The pong reply built by `Client.handlePing`. -/
def pongMessage (c : Client) (now mid : Nat) : Message :=
  { ty := .pong, data := none,
    UserID := c.UserID, TenantID := c.TenantID, Timestamp := now, MessageID := mid }

/-- Model of `Hub.registerClient`: get or create the tenant room, add the client to its
member map, then (blocking send) hand the synthesized `UserJoined` message to
the room's broadcast channel.  `now`/`mid` are the values of
`getCurrentTimestamp()`/`generateMessageID()`. -/
def registerClient (h : Hub) (c : Client) (now mid : Nat) : Hub :=
  let room := match findRoom h.tenants c.TenantID with
    | some r => r
    | none => { TenantID := c.TenantID, clients := [], broadcast := [] }
  let room1 := { room with clients := insertClient c room.clients }
  let room2 := { room1 with broadcast := room1.broadcast ++ [joinMessage c now mid] }
  { tenants := setRoom h.tenants c.TenantID room2, conns := insertConn c h.conns }

/-- Model of `Hub.unregisterClient`: if the client's tenant has a room and the client is
a member, remove it, close its channel, broadcast `UserLeft` into the room,
and delete the room from the map if it became empty; otherwise do nothing. -/
def unregisterClient (h : Hub) (c : Client) (now mid : Nat) : Hub :=
  match findRoom h.tenants c.TenantID with
  | none => h
  | some r =>
    if c ∈ r.clients then
      let clients1 := removeClient c r.clients
      let conns1 := closeConn c h.conns
      let room1 : TenantRoom :=
        { TenantID := r.TenantID, clients := clients1,
          broadcast := r.broadcast ++ [leaveMessage c now mid] }
      if clients1 = [] then
        { tenants := eraseRoom h.tenants c.TenantID, conns := conns1 }
      else
        { tenants := setRoom h.tenants c.TenantID room1, conns := conns1 }
    else h

/-- Model of `Hub.broadcastMessage`: route a hub-level message to the room keyed by the
message's own `TenantID`; non-blocking send onto the room channel, dropped
with a warning when the room is missing or its channel is full. -/
def broadcastMessage (h : Hub) (m : Message) : Hub :=
  match findRoom h.tenants m.TenantID with
  | none => h
  | some r =>
    if r.broadcast.length < roomCap then
      { h with tenants := setRoom h.tenants m.TenantID { r with broadcast := r.broadcast ++ [m] } }
    else h

/-- Model of `Hub.BroadcastToTenant` followed by the dispatcher delivering the hub
channel message to `broadcastMessage` (the path where the non-blocking send on
`h.broadcast` succeeds; when it fails the call is a no-op, i.e. the absence of
this `Op`). `UserID` is left at the zero uuid. -/
def BroadcastToTenant (h : Hub) (tid : Nat) (mt : MessageType) (d : Option Payload)
    (now mid : Nat) : Hub :=
  broadcastMessage h
    { ty := mt, data := d, UserID := 0, TenantID := tid, Timestamp := now, MessageID := mid }

/-- One iteration of the member loop of `TenantRoom.run`: non-blocking send of
the (already serialised) message to each member; a member whose channel cannot
accept it is dropped: its channel is closed and it is deleted from the member
map. Returns the surviving member list and the updated channel states. -/
def roomFanout (m : Message) : List Client → List Conn → List Client × List Conn
  | [], conns => ([], conns)
  | c :: cs, conns =>
    match findConn conns c with
    | some e =>
      if e.closed = false ∧ e.send.length < sendCap then
        let p := roomFanout m cs (enqueueConn m c conns)
        (c :: p.1, p.2)
      else
        roomFanout m cs (closeConn c conns)
    | none =>
      let p := roomFanout m cs conns
      (c :: p.1, p.2)

/-- The member loop of `Hub.BroadcastToUser`: like `roomFanout` but only
members whose `UserID` matches are touched. -/
def userFanout (uid : Nat) (m : Message) : List Client → List Conn → List Client × List Conn
  | [], conns => ([], conns)
  | c :: cs, conns =>
    if c.UserID = uid then
      match findConn conns c with
      | some e =>
        if e.closed = false ∧ e.send.length < sendCap then
          let p := userFanout uid m cs (enqueueConn m c conns)
          (c :: p.1, p.2)
        else
          userFanout uid m cs (closeConn c conns)
      | none =>
        let p := userFanout uid m cs conns
        (c :: p.1, p.2)
    else
      let p := userFanout uid m cs conns
      (c :: p.1, p.2)

/-- Model of `Hub.BroadcastToUser`: look the room up synchronously, build the stamped
message, and deliver it to every member whose `UserID` matches, dropping
slow consumers. A missing room is a silent no-op. -/
def BroadcastToUser (h : Hub) (tid uid : Nat) (mt : MessageType) (d : Option Payload)
    (now mid : Nat) : Hub :=
  match findRoom h.tenants tid with
  | none => h
  | some r =>
    let m : Message :=
      { ty := mt, data := d, UserID := uid, TenantID := tid, Timestamp := now, MessageID := mid }
    let p := userFanout uid m r.clients h.conns
    { tenants := setRoom h.tenants tid { r with clients := p.1 }, conns := p.2 }

/-- One iteration of `TenantRoom.run` as seen from the hub state: take the
next message off the room's channel (if any) and fan it out to the members.
The source never deletes an emptied room here. -/
def roomRunStep (h : Hub) (tid : Nat) : Hub :=
  match findRoom h.tenants tid with
  | none => h
  | some r =>
    match r.broadcast with
    | [] => h
    | m :: rest =>
      let p := roomFanout m r.clients h.conns
      { tenants := setRoom h.tenants tid { r with clients := p.1, broadcast := rest },
        conns := p.2 }

/-- The whole loop of `TenantRoom.run` over a batch of queued messages. -/
def roomRunList (cs : List Client) (conns : List Conn) : List Message → List Client × List Conn
  | [] => (cs, conns)
  | m :: ms =>
    let p := roomFanout m cs conns
    roomRunList p.1 p.2 ms

/-- An inbound wire frame as seen after `conn.ReadMessage()`: either it fails
`json.Unmarshal` or it parses to a `Message` whose fields are entirely
client-controlled. -/
inductive Frame
  | malformed
  | parsed (m : Message)
deriving DecidableEq, Repr

/-- Where the read pump routes the result of one frame. -/
inductive RouteResult
  | toHub (m : Message)
  | pongReply (m : Message)
  | errorReply (m : Message)
deriving DecidableEq, Repr

/-- The re-stamping done by `Client.readPump` after a successful parse. -/
def stampMessage (c : Client) (m : Message) (now mid : Nat) : Message :=
  { m with UserID := c.UserID, TenantID := c.TenantID, Timestamp := now, MessageID := mid }

/-- One iteration of `Client.readPump` + `Client.handleMessage` as a pure
routing function: malformed frames are answered by `sendError`, `ping` by
`handlePing`, `typing` by `handleTyping` (which re-stamps identity and
timestamp once more), everything else goes to the hub broadcast channel. -/
def processFrame (c : Client) (f : Frame) (now mid : Nat) : RouteResult :=
  match f with
  | .malformed => .errorReply (errorMessage c "Invalid message format" now mid)
  | .parsed m0 =>
    let m := stampMessage c m0 now mid
    match m.ty with
    | .ping => .pongReply (pongMessage c now mid)
    | .typing => .toHub { m with UserID := c.UserID, TenantID := c.TenantID, Timestamp := now }
    | _ => .toHub m

/-- The message carried by a routing result. -/
def routedMessage : RouteResult → Message
  | .toHub m => m
  | .pongReply m => m
  | .errorReply m => m

/-- The `select`/`default` direct reply of `handlePing` and `sendError`: a
non-blocking send on the client's own channel; when it cannot be delivered the
channel is closed — and the client is NOT removed from its room here. -/
def trySendSelf (h : Hub) (c : Client) (m : Message) : Hub :=
  match findConn h.conns c with
  | none => h
  | some e =>
    if e.closed = false ∧ e.send.length < sendCap then
      { h with conns := enqueueConn m c h.conns }
    else
      { h with conns := closeConn c h.conns }

/-- Full effect of one inbound frame on the hub state. -/
def clientFrame (h : Hub) (c : Client) (f : Frame) (now mid : Nat) : Hub :=
  match processFrame c f now mid with
  | .toHub m => broadcastMessage h m
  | .pongReply m => trySendSelf h c m
  | .errorReply m => trySendSelf h c m

/-- The read pump loop over a list of inbound frames; the loop survives
malformed frames and only ends with the frame list (a transport error). `clk`
feeds both the timestamp and the fresh message id of each iteration. -/
def readPumpRun (c : Client) (h : Hub) : List Frame → Nat → Hub
  | [], _ => h
  | f :: fs, clk => readPumpRun c (clientFrame h c f clk clk) fs (clk + 1)

/-- Helper `drainN n q`: the inner loop of `Client.writePump` that moves `n` more
queued messages into the frame being written. -/
def drainN : Nat → List Message → List Message × List Message
  | 0, q => ([], q)
  | _ + 1, [] => ([], [])
  | n + 1, m :: q =>
    let p := drainN n q
    (m :: p.1, p.2)

/-- One wake-up of `Client.writePump` on a non-empty queue: receive one
message, open one writer (one wire frame), write the message, then append the
`n = len(c.send)` messages still queued, newline-separated, to the same frame.
Returns the frame contents and the remaining queue. -/
def writeFrame : List Message → Option (List Message × List Message)
  | [] => none
  | m :: rest =>
    let p := drainN rest.length rest
    some (m :: p.1, p.2)

/-- One serialised action of the system: one dispatcher iteration
(`register`/`unregister`/hub broadcast), one producer call, one read-pump
frame, or one room fan-out iteration. -/
inductive Op
  | register (c : Client) (now mid : Nat)
  | unregister (c : Client) (now mid : Nat)
  | hubBroadcast (m : Message)
  | toTenant (tid : Nat) (mt : MessageType) (d : Option Payload) (now mid : Nat)
  | toUser (tid uid : Nat) (mt : MessageType) (d : Option Payload) (now mid : Nat)
  | frame (c : Client) (f : Frame) (now mid : Nat)
  | roomStep (tid : Nat)
deriving DecidableEq, Repr

/-- Interpretation of one action on the hub state. -/
def step (h : Hub) : Op → Hub
  | .register c now mid => registerClient h c now mid
  | .unregister c now mid => unregisterClient h c now mid
  | .hubBroadcast m => broadcastMessage h m
  | .toTenant tid mt d now mid => BroadcastToTenant h tid mt d now mid
  | .toUser tid uid mt d now mid => BroadcastToUser h tid uid mt d now mid
  | .frame c f now mid => clientFrame h c f now mid
  | .roomStep tid => roomRunStep h tid

/-- The hub as built by `NewHub`: no rooms, no connections. -/
def initHub : Hub := { tenants := [], conns := [] }

/-- Run a sequence of actions. -/
def runOps (h : Hub) : List Op → Hub
  | [] => h
  | op :: ops => runOps (step h op) ops

/-- The member set of a tenant's room as observable from the hub state. -/
def membersOf (h : Hub) (tid : Nat) : List Client :=
  match findRoom h.tenants tid with
  | some r => r.clients
  | none => []

/-! Section: Association-list lemmas for the tenants map and the connection registry -/

theorem mem_setRoom {ts : List (Nat × TenantRoom)} {tid : Nat} {r : TenantRoom} {x}
    (hx : x ∈ setRoom ts tid r) : x = (tid, r) ∨ x ∈ ts := by
  induction ts with
  | nil => simpa [setRoom] using hx
  | cons p ts ih =>
    obtain ⟨t, r0⟩ := p
    by_cases h : t = tid
    · simp only [setRoom, if_pos h, List.mem_cons] at hx
      rcases hx with h1 | h1
      · exact Or.inl h1
      · exact Or.inr (List.mem_cons_of_mem _ h1)
    · simp only [setRoom, if_neg h, List.mem_cons] at hx
      rcases hx with h1 | h1
      · exact Or.inr (by simp [h1])
      · rcases ih h1 with h2 | h2
        · exact Or.inl h2
        · exact Or.inr (List.mem_cons_of_mem _ h2)

theorem mem_eraseRoom {ts : List (Nat × TenantRoom)} {tid : Nat} {x}
    (hx : x ∈ eraseRoom ts tid) : x ∈ ts := by
  induction ts with
  | nil => simp [eraseRoom] at hx
  | cons p ts ih =>
    obtain ⟨t, r0⟩ := p
    by_cases h : t = tid
    · simp only [eraseRoom, if_pos h] at hx
      exact List.mem_cons_of_mem _ (ih hx)
    · simp only [eraseRoom, if_neg h, List.mem_cons] at hx
      rcases hx with h1 | h1
      · exact by simp [h1]
      · exact List.mem_cons_of_mem _ (ih h1)

theorem findRoom_mem {ts : List (Nat × TenantRoom)} {tid : Nat} {r : TenantRoom}
    (hx : findRoom ts tid = some r) : (tid, r) ∈ ts := by
  induction ts with
  | nil => simp [findRoom] at hx
  | cons p ts ih =>
    obtain ⟨t, r0⟩ := p
    by_cases h : t = tid
    · simp only [findRoom, if_pos h] at hx
      cases hx
      simp [h]
    · simp only [findRoom, if_neg h] at hx
      exact List.mem_cons_of_mem _ (ih hx)

theorem findRoom_setRoom_self (ts : List (Nat × TenantRoom)) (tid : Nat) (r : TenantRoom) :
    findRoom (setRoom ts tid r) tid = some r := by
  induction ts with
  | nil => simp [setRoom, findRoom]
  | cons p ts ih =>
    obtain ⟨t, r0⟩ := p
    by_cases h : t = tid
    · simp [setRoom, findRoom, h]
    · simp [setRoom, findRoom, h, ih]

theorem findRoom_setRoom_ne (ts : List (Nat × TenantRoom)) {tid tid2 : Nat} (r : TenantRoom)
    (h : tid2 ≠ tid) : findRoom (setRoom ts tid r) tid2 = findRoom ts tid2 := by
  induction ts with
  | nil => simp [setRoom, findRoom, Ne.symm h]
  | cons p ts ih =>
    obtain ⟨t, r0⟩ := p
    by_cases ht : t = tid
    · simp [setRoom, findRoom, ht, Ne.symm h]
    · simp only [setRoom, if_neg ht, findRoom]
      by_cases ht2 : t = tid2 <;> simp [ht2, ih]

theorem findRoom_eraseRoom_self (ts : List (Nat × TenantRoom)) (tid : Nat) :
    findRoom (eraseRoom ts tid) tid = none := by
  induction ts with
  | nil => simp [eraseRoom, findRoom]
  | cons p ts ih =>
    obtain ⟨t, r0⟩ := p
    by_cases h : t = tid
    · simpa [eraseRoom, h] using ih
    · simp [eraseRoom, findRoom, h, ih]

theorem findConn_mem {es : List Conn} {c : Client} {e : Conn}
    (hx : findConn es c = some e) : e ∈ es ∧ e.client = c := by
  induction es with
  | nil => simp [findConn] at hx
  | cons e0 es ih =>
    by_cases h : e0.client = c
    · simp only [findConn, if_pos h] at hx
      cases hx
      exact ⟨by simp, h⟩
    · simp only [findConn, if_neg h] at hx
      exact ⟨List.mem_cons_of_mem _ (ih hx).1, (ih hx).2⟩

theorem mem_updateConn {f : Conn → Conn} {c : Client} {es : List Conn} {x}
    (hx : x ∈ updateConn f c es) :
    x ∈ es ∨ ∃ e, e ∈ es ∧ e.client = c ∧ x = f e := by
  induction es with
  | nil => simp [updateConn] at hx
  | cons e0 es ih =>
    by_cases h : e0.client = c
    · simp only [updateConn, if_pos h, List.mem_cons] at hx
      rcases hx with h1 | h1
      · exact Or.inr ⟨e0, by simp, h, h1⟩
      · rcases ih h1 with h2 | h2
        · exact Or.inl (List.mem_cons_of_mem _ h2)
        · obtain ⟨e, he, hec, hxe⟩ := h2
          exact Or.inr ⟨e, List.mem_cons_of_mem _ he, hec, hxe⟩
    · simp only [updateConn, if_neg h, List.mem_cons] at hx
      rcases hx with h1 | h1
      · exact Or.inl (by simp [h1])
      · rcases ih h1 with h2 | h2
        · exact Or.inl (List.mem_cons_of_mem _ h2)
        · obtain ⟨e, he, hec, hxe⟩ := h2
          exact Or.inr ⟨e, List.mem_cons_of_mem _ he, hec, hxe⟩

theorem findConn_updateConn_self {f : Conn → Conn} (hf : ∀ e, (f e).client = e.client)
    {es : List Conn} {c : Client} {e : Conn} (hx : findConn es c = some e) :
    findConn (updateConn f c es) c = some (f e) := by
  induction es with
  | nil => simp [findConn] at hx
  | cons e0 es ih =>
    by_cases h : e0.client = c
    · simp only [findConn, if_pos h] at hx
      cases hx
      simp [updateConn, findConn, h, hf]
    · simp only [findConn, if_neg h] at hx
      simp [updateConn, findConn, h, ih hx]

theorem findConn_updateConn_ne {f : Conn → Conn} (hf : ∀ e, (f e).client = e.client)
    (es : List Conn) {c c2 : Client} (h : c ≠ c2) :
    findConn (updateConn f c2 es) c = findConn es c := by
  induction es with
  | nil => simp [updateConn]
  | cons e0 es ih =>
    by_cases h0 : e0.client = c2
    · have : (f e0).client ≠ c := by rw [hf, h0]; exact Ne.symm h
      have h0c : e0.client ≠ c := by rw [h0]; exact Ne.symm h
      simp [updateConn, findConn, h0, this, h0c, ih, Ne.symm h]
    · simp only [updateConn, if_neg h0, findConn]
      by_cases h1 : e0.client = c <;> simp [h1, ih]

theorem findConn_insertConn_self (es : List Conn) (c : Client) :
    ∃ e, findConn (insertConn c es) c = some e ∧ e.client = c := by
  unfold insertConn
  cases hx : findConn es c with
  | some e => exact ⟨e, hx, (findConn_mem hx).2⟩
  | none =>
    refine ⟨{ client := c, send := [], closed := false, closes := 0 }, ?_, rfl⟩
    induction es with
    | nil => simp [findConn]
    | cons e0 es ih =>
      by_cases h : e0.client = c
      · simp [findConn, h] at hx
      · simp only [findConn, if_neg h] at hx
        simpa [findConn, h] using ih hx

/-! Section: Membership helpers for member lists -/

theorem mem_insertClient {c x : Client} {l : List Client} (hx : x ∈ insertClient c l) :
    x = c ∨ x ∈ l := by
  unfold insertClient at hx
  by_cases h : c ∈ l
  · exact Or.inr (by simpa [h] using hx)
  · simpa [h] using hx

theorem mem_removeClient {c x : Client} {l : List Client} (hx : x ∈ removeClient c l) :
    x ∈ l := by
  induction l with
  | nil => simp [removeClient] at hx
  | cons y ys ih =>
    by_cases h : y = c
    · simp only [removeClient, if_pos h] at hx
      exact List.mem_cons_of_mem _ (ih hx)
    · simp only [removeClient, if_neg h, List.mem_cons] at hx
      rcases hx with h1 | h1
      · exact by simp [h1]
      · exact List.mem_cons_of_mem _ (ih h1)

theorem not_mem_removeClient_self (c : Client) (l : List Client) :
    c ∉ removeClient c l := by
  induction l with
  | nil => simp [removeClient]
  | cons y ys ih =>
    by_cases h : y = c
    · simpa [removeClient, h] using ih
    · simp [removeClient, h, ih, Ne.symm h]

theorem roomFanout_fst_sublist (m : Message) :
    ∀ (cs : List Client) (conns : List Conn), List.Sublist (roomFanout m cs conns).1 cs := by
  intro cs
  induction cs with
  | nil => intro conns; simp [roomFanout]
  | cons c cs ih =>
    intro conns
    cases he : findConn conns c with
    | none =>
      simp only [roomFanout, he]
      exact List.Sublist.cons₂ c (ih conns)
    | some e =>
      by_cases hcond : e.closed = false ∧ e.send.length < sendCap
      · simp only [roomFanout, he, if_pos hcond]
        exact List.Sublist.cons₂ c (ih _)
      · simp only [roomFanout, he, if_neg hcond]
        exact List.Sublist.cons c (ih _)

theorem userFanout_fst_sublist (uid : Nat) (m : Message) :
    ∀ (cs : List Client) (conns : List Conn), List.Sublist (userFanout uid m cs conns).1 cs := by
  intro cs
  induction cs with
  | nil => intro conns; simp [userFanout]
  | cons c cs ih =>
    intro conns
    by_cases hu : c.UserID = uid
    · cases he : findConn conns c with
      | none =>
        simp only [userFanout, if_pos hu, he]
        exact List.Sublist.cons₂ c (ih conns)
      | some e =>
        by_cases hcond : e.closed = false ∧ e.send.length < sendCap
        · simp only [userFanout, if_pos hu, he, if_pos hcond]
          exact List.Sublist.cons₂ c (ih _)
        · simp only [userFanout, if_pos hu, he, if_neg hcond]
          exact List.Sublist.cons c (ih _)
    · simp only [userFanout, if_neg hu]
      exact List.Sublist.cons₂ c (ih conns)

/-! Section: The tenant-isolation invariant (claim C1) -/

/-- Every message sitting in any connection's outbound channel is addressed to
that connection's own tenant. -/
def ConnInv (es : List Conn) : Prop :=
  ∀ e ∈ es, ∀ m ∈ e.send, m.TenantID = e.client.TenantID

/-- Every room is keyed by its own tenant id, members belong to that tenant,
and every message queued for fan-out in the room is addressed to it. -/
def RoomInv (ts : List (Nat × TenantRoom)) : Prop :=
  ∀ p ∈ ts, p.2.TenantID = p.1 ∧ (∀ c ∈ p.2.clients, c.TenantID = p.1) ∧
    (∀ m ∈ p.2.broadcast, m.TenantID = p.1)

/-- The full hub invariant. -/
def Inv (h : Hub) : Prop := RoomInv h.tenants ∧ ConnInv h.conns

theorem connInv_enqueueConn {es : List Conn} {m : Message} {c : Client}
    (h1 : ConnInv es) (hm : m.TenantID = c.TenantID) : ConnInv (enqueueConn m c es) := by
  intro x hx m0 hm0
  rcases mem_updateConn hx with h2 | ⟨e, he, hec, rfl⟩
  · exact h1 x h2 m0 hm0
  · simp only [List.mem_append, List.mem_singleton] at hm0
    rcases hm0 with h3 | rfl
    · exact h1 e he m0 h3
    · simpa [hec] using hm

theorem connInv_closeConn {es : List Conn} {c : Client}
    (h1 : ConnInv es) : ConnInv (closeConn c es) := by
  intro x hx m0 hm0
  rcases mem_updateConn hx with h2 | ⟨e, he, _, rfl⟩
  · exact h1 x h2 m0 hm0
  · exact h1 e he m0 hm0

theorem connInv_insertConn {es : List Conn} {c : Client}
    (h1 : ConnInv es) : ConnInv (insertConn c es) := by
  intro x hx m0 hm0
  unfold insertConn at hx
  cases hfind : findConn es c with
  | some e => exact h1 x (by rwa [hfind] at hx) m0 hm0
  | none =>
    rw [hfind] at hx
    rcases List.mem_append.1 hx with h2 | h2
    · exact h1 x h2 m0 hm0
    · simp only [List.mem_singleton] at h2
      subst h2
      simp at hm0

theorem roomFanout_connInv (m : Message) :
    ∀ (cs : List Client) (conns : List Conn), (∀ c ∈ cs, c.TenantID = m.TenantID) →
      ConnInv conns → ConnInv (roomFanout m cs conns).2 := by
  intro cs
  induction cs with
  | nil => intro conns _ h2; simpa [roomFanout] using h2
  | cons c cs ih =>
    intro conns h1 h2
    have hc : m.TenantID = c.TenantID := (h1 c (by simp)).symm
    have h1r : ∀ x ∈ cs, x.TenantID = m.TenantID := fun x hx => h1 x (List.mem_cons_of_mem _ hx)
    cases he : findConn conns c with
    | none =>
      simp only [roomFanout, he]
      exact ih conns h1r h2
    | some e =>
      by_cases hcond : e.closed = false ∧ e.send.length < sendCap
      · simp only [roomFanout, he, if_pos hcond]
        exact ih _ h1r (connInv_enqueueConn h2 hc)
      · simp only [roomFanout, he, if_neg hcond]
        exact ih _ h1r (connInv_closeConn h2)

theorem userFanout_connInv (uid : Nat) (m : Message) :
    ∀ (cs : List Client) (conns : List Conn), (∀ c ∈ cs, c.TenantID = m.TenantID) →
      ConnInv conns → ConnInv (userFanout uid m cs conns).2 := by
  intro cs
  induction cs with
  | nil => intro conns _ h2; simpa [userFanout] using h2
  | cons c cs ih =>
    intro conns h1 h2
    have hc : m.TenantID = c.TenantID := (h1 c (by simp)).symm
    have h1r : ∀ x ∈ cs, x.TenantID = m.TenantID := fun x hx => h1 x (List.mem_cons_of_mem _ hx)
    by_cases hu : c.UserID = uid
    · cases he : findConn conns c with
      | none =>
        simp only [userFanout, if_pos hu, he]
        exact ih conns h1r h2
      | some e =>
        by_cases hcond : e.closed = false ∧ e.send.length < sendCap
        · simp only [userFanout, if_pos hu, he, if_pos hcond]
          exact ih _ h1r (connInv_enqueueConn h2 hc)
        · simp only [userFanout, if_pos hu, he, if_neg hcond]
          exact ih _ h1r (connInv_closeConn h2)
    · simp only [userFanout, if_neg hu]
      exact ih conns h1r h2

theorem registerClient_inv {h : Hub} {c : Client} {now mid : Nat}
    (hI : Inv h) : Inv (registerClient h c now mid) := by
  obtain ⟨hR, hC⟩ := hI
  constructor
  · intro p hp
    unfold registerClient at hp
    rcases mem_setRoom hp with rfl | hmem
    · refine ⟨?_, ?_, ?_⟩
      · cases hfind : findRoom h.tenants c.TenantID with
        | none => simp [hfind]
        | some r => simpa [hfind] using (hR _ (findRoom_mem hfind)).1
      · intro x hx
        rcases mem_insertClient hx with rfl | hx2
        · rfl
        · cases hfind : findRoom h.tenants c.TenantID with
          | none => simp [hfind] at hx2
          | some r =>
            rw [hfind] at hx2
            exact (hR _ (findRoom_mem hfind)).2.1 x hx2
      · intro m hm
        simp only [List.mem_append, List.mem_singleton] at hm
        rcases hm with hm | rfl
        · cases hfind : findRoom h.tenants c.TenantID with
          | none => simp [hfind] at hm
          | some r =>
            rw [hfind] at hm
            exact (hR _ (findRoom_mem hfind)).2.2 m hm
        · rfl
    · exact hR p hmem
  · exact connInv_insertConn hC

theorem unregisterClient_inv {h : Hub} {c : Client} {now mid : Nat}
    (hI : Inv h) : Inv (unregisterClient h c now mid) := by
  obtain ⟨hR, hC⟩ := hI
  unfold unregisterClient
  cases hfind : findRoom h.tenants c.TenantID with
  | none => exact ⟨hR, hC⟩
  | some r =>
    by_cases hmem : c ∈ r.clients
    · have hr := hR _ (findRoom_mem hfind)
      by_cases hempty : removeClient c r.clients = []
      · simp only [if_pos hmem, if_pos hempty]
        refine ⟨?_, connInv_closeConn hC⟩
        intro p hp
        exact hR p (mem_eraseRoom hp)
      · simp only [if_pos hmem, if_neg hempty]
        refine ⟨?_, connInv_closeConn hC⟩
        intro p hp
        rcases mem_setRoom hp with rfl | hmem2
        · refine ⟨hr.1, ?_, ?_⟩
          · intro x hx
            exact hr.2.1 x (mem_removeClient hx)
          · intro m hm
            simp only [List.mem_append, List.mem_singleton] at hm
            rcases hm with hm | rfl
            · exact hr.2.2 m hm
            · rfl
        · exact hR p hmem2
    · simp only [if_neg hmem]
      exact ⟨hR, hC⟩

theorem broadcastMessage_inv {h : Hub} {m : Message}
    (hI : Inv h) : Inv (broadcastMessage h m) := by
  obtain ⟨hR, hC⟩ := hI
  unfold broadcastMessage
  cases hfind : findRoom h.tenants m.TenantID with
  | none => exact ⟨hR, hC⟩
  | some r =>
    by_cases hlen : r.broadcast.length < roomCap
    · simp only [if_pos hlen]
      have hr := hR _ (findRoom_mem hfind)
      refine ⟨?_, hC⟩
      intro p hp
      rcases mem_setRoom hp with rfl | hmem
      · refine ⟨hr.1, hr.2.1, ?_⟩
        intro m0 hm0
        simp only [List.mem_append, List.mem_singleton] at hm0
        rcases hm0 with hm0 | rfl
        · exact hr.2.2 m0 hm0
        · rfl
      · exact hR p hmem
    · simp only [if_neg hlen]
      exact ⟨hR, hC⟩

theorem BroadcastToUser_inv {h : Hub} {tid uid : Nat} {mt : MessageType} {d : Option Payload}
    {now mid : Nat} (hI : Inv h) : Inv (BroadcastToUser h tid uid mt d now mid) := by
  obtain ⟨hR, hC⟩ := hI
  unfold BroadcastToUser
  cases hfind : findRoom h.tenants tid with
  | none => exact ⟨hR, hC⟩
  | some r =>
    have hr := hR _ (findRoom_mem hfind)
    refine ⟨?_, ?_⟩
    · intro p hp
      rcases mem_setRoom hp with rfl | hmem
      · refine ⟨hr.1, ?_, hr.2.2⟩
        intro x hx
        exact hr.2.1 x ((userFanout_fst_sublist _ _ _ _).subset hx)
      · exact hR p hmem
    · exact userFanout_connInv uid _ r.clients h.conns (fun x hx => hr.2.1 x hx) hC

theorem trySendSelf_inv {h : Hub} {c : Client} {m : Message}
    (hm : m.TenantID = c.TenantID) (hI : Inv h) : Inv (trySendSelf h c m) := by
  obtain ⟨hR, hC⟩ := hI
  unfold trySendSelf
  cases hfind : findConn h.conns c with
  | none => exact ⟨hR, hC⟩
  | some e =>
    by_cases hcond : e.closed = false ∧ e.send.length < sendCap
    · simp only [if_pos hcond]
      exact ⟨hR, connInv_enqueueConn hC hm⟩
    · simp only [if_neg hcond]
      exact ⟨hR, connInv_closeConn hC⟩

/-- Whatever frame arrives, the message the read pump routes carries the
connection's own authenticated identity and the stamping-time timestamp and
message id — never the client-supplied values. Shared workhorse for claims C1
and C2. -/
theorem processFrame_fields (c : Client) (f : Frame) (now mid : Nat) :
    (routedMessage (processFrame c f now mid)).UserID = c.UserID ∧
    (routedMessage (processFrame c f now mid)).TenantID = c.TenantID ∧
    (routedMessage (processFrame c f now mid)).Timestamp = now ∧
    (routedMessage (processFrame c f now mid)).MessageID = mid := by
  cases f with
  | malformed => exact ⟨rfl, rfl, rfl, rfl⟩
  | parsed m0 =>
    obtain ⟨ty, d, u, t, ts, mi⟩ := m0
    cases ty <;> exact ⟨rfl, rfl, rfl, rfl⟩

theorem clientFrame_inv {h : Hub} {c : Client} {f : Frame} {now mid : Nat}
    (hI : Inv h) : Inv (clientFrame h c f now mid) := by
  unfold clientFrame
  cases hpf : processFrame c f now mid with
  | toHub m => exact broadcastMessage_inv hI
  | pongReply m =>
    have hfields := (processFrame_fields c f now mid).2.1
    rw [hpf] at hfields
    exact trySendSelf_inv hfields hI
  | errorReply m =>
    have hfields := (processFrame_fields c f now mid).2.1
    rw [hpf] at hfields
    exact trySendSelf_inv hfields hI

theorem roomRunStep_inv {h : Hub} {tid : Nat} (hI : Inv h) : Inv (roomRunStep h tid) := by
  obtain ⟨hR, hC⟩ := hI
  cases hfind : findRoom h.tenants tid with
  | none => simpa [roomRunStep, hfind] using And.intro hR hC
  | some r =>
    cases hq : r.broadcast with
    | nil => simpa [roomRunStep, hfind, hq] using And.intro hR hC
    | cons m rest =>
      simp only [roomRunStep, hfind, hq]
      have hr := hR _ (findRoom_mem hfind)
      have hmt : m.TenantID = tid := hr.2.2 m (by simp [hq])
      refine ⟨?_, ?_⟩
      · intro p hp
        rcases mem_setRoom hp with rfl | hmem
        · refine ⟨hr.1, ?_, ?_⟩
          · intro x hx
            exact hr.2.1 x ((roomFanout_fst_sublist _ _ _).subset hx)
          · intro m0 hm0
            exact hr.2.2 m0 (by simp [hq, List.mem_cons_of_mem, hm0])
        · exact hR p hmem
      · refine roomFanout_connInv m r.clients h.conns ?_ hC
        intro x hx
        rw [hmt]
        exact hr.2.1 x hx

theorem step_inv {h : Hub} (op : Op) (hI : Inv h) : Inv (step h op) := by
  cases op with
  | register c now mid => exact registerClient_inv hI
  | unregister c now mid => exact unregisterClient_inv hI
  | hubBroadcast m => exact broadcastMessage_inv hI
  | toTenant tid mt d now mid => exact broadcastMessage_inv hI
  | toUser tid uid mt d now mid => exact BroadcastToUser_inv hI
  | frame c f now mid => exact clientFrame_inv hI
  | roomStep tid => exact roomRunStep_inv hI

theorem runOps_inv : ∀ (ops : List Op) (h : Hub), Inv h → Inv (runOps h ops) := by
  intro ops
  induction ops with
  | nil => intro h hI; exact hI
  | cons op ops ih => intro h hI; exact ih _ (step_inv op hI)

theorem initHub_inv : Inv initHub := by
  constructor
  · intro p hp; simp [initHub] at hp
  · intro e he; simp [initHub] at he

/-! Section: Claims C1 and C2 -/

/-- Claim C1 (tenant isolation): starting from a fresh hub, after any sequence
of hub operations, every message sitting in any connection's outbound queue is
addressed to that connection's own tenant; hence a message broadcast to tenant
T1 is never enqueued for (so never delivered to) a connection of a disjoint
tenant T2. -/
theorem tenant_isolation (ops : List Op) {e : Conn} {m : Message}
    (he : e ∈ (runOps initHub ops).conns) (hm : m ∈ e.send) :
    m.TenantID = e.client.TenantID :=
  (runOps_inv ops initHub initHub_inv).2 e he m hm

/-- A sample connection: user 7 of tenant 5. -/
def cT5 : Client := { cid := 1, UserID := 7, UserName := "alice", TenantID := 5, Role := "admin" }

/-- Witness for C1: run `register` then one room fan-out step; the delivered
`UserJoined` message in the connection's queue is addressed to its tenant. -/
theorem tenant_isolation_witness :
    (joinMessage cT5 0 0).TenantID =
      (Conn.mk cT5 [joinMessage cT5 0 0] false 0).client.TenantID :=
  tenant_isolation [Op.register cT5 0 0, Op.roomStep 5]
    (e := Conn.mk cT5 [joinMessage cT5 0 0] false 0) (by decide) (by decide)

/-- Claim C2 (anti-spoofing): for every inbound frame the read pump processes,
the routed message (hub broadcast or direct Pong/Error reply) carries the
connection's authenticated `UserID` and `TenantID` and the stamping-time
timestamp and fresh message id, regardless of the user/tenant fields of the
raw frame. -/
theorem anti_spoofing (c : Client) (f : Frame) (now mid : Nat) :
    (routedMessage (processFrame c f now mid)).UserID = c.UserID ∧
    (routedMessage (processFrame c f now mid)).TenantID = c.TenantID ∧
    (routedMessage (processFrame c f now mid)).Timestamp = now ∧
    (routedMessage (processFrame c f now mid)).MessageID = mid :=
  processFrame_fields c f now mid

/-! Section: Behaviour of the fan-out loops on a single member -/

theorem findConn_enqueueConn_self {es : List Conn} {c : Client} {e : Conn} (m : Message)
    (he : findConn es c = some e) :
    findConn (enqueueConn m c es) c = some { e with send := e.send ++ [m] } := by
  unfold enqueueConn
  refine findConn_updateConn_self ?_ he
  intro x
  rfl

theorem findConn_closeConn_self {es : List Conn} {c : Client} {e : Conn}
    (he : findConn es c = some e) :
    findConn (closeConn c es) c = some { e with closed := true, closes := e.closes + 1 } := by
  unfold closeConn
  refine findConn_updateConn_self ?_ he
  intro x
  rfl

theorem findConn_enqueueConn_ne (m : Message) (es : List Conn) {c c2 : Client} (h : c ≠ c2) :
    findConn (enqueueConn m c2 es) c = findConn es c := by
  unfold enqueueConn
  refine findConn_updateConn_ne ?_ es h
  intro x
  rfl

theorem findConn_closeConn_ne (es : List Conn) {c c2 : Client} (h : c ≠ c2) :
    findConn (closeConn c2 es) c = findConn es c := by
  unfold closeConn
  refine findConn_updateConn_ne ?_ es h
  intro x
  rfl

theorem roomFanout_findConn_notmem (m : Message) :
    ∀ (cs : List Client) (conns : List Conn) (c : Client), c ∉ cs →
      findConn (roomFanout m cs conns).2 c = findConn conns c := by
  intro cs
  induction cs with
  | nil => intro conns c _; simp [roomFanout]
  | cons d cs ih =>
    intro conns c hc
    have hcd : c ≠ d := fun hh => hc (by simp [hh])
    have hcs : c ∉ cs := fun hh => hc (List.mem_cons_of_mem _ hh)
    cases hfd : findConn conns d with
    | none => simp only [roomFanout, hfd]; exact ih conns c hcs
    | some ed =>
      by_cases hcond : ed.closed = false ∧ ed.send.length < sendCap
      · simp only [roomFanout, hfd, if_pos hcond]
        rw [ih _ c hcs]
        exact findConn_enqueueConn_ne m conns hcd
      · simp only [roomFanout, hfd, if_neg hcond]
        rw [ih _ c hcs]
        exact findConn_closeConn_ne conns hcd

theorem roomFanout_enqueue (m : Message) :
    ∀ (cs : List Client) (conns : List Conn) (c : Client) (e : Conn), cs.Nodup →
      c ∈ cs → findConn conns c = some e → e.closed = false → e.send.length < sendCap →
      c ∈ (roomFanout m cs conns).1 ∧
        findConn (roomFanout m cs conns).2 c = some { e with send := e.send ++ [m] } := by
  intro cs
  induction cs with
  | nil => intro conns c e _ hc; simp at hc
  | cons d cs ih =>
    intro conns c e hnd hc he hclosed hlen
    obtain ⟨hd, hnd2⟩ := List.nodup_cons.mp hnd
    rcases List.mem_cons.mp hc with rfl | hc2
    · simp only [roomFanout, he, if_pos (And.intro hclosed hlen)]
      refine ⟨by simp, ?_⟩
      rw [roomFanout_findConn_notmem m cs _ c hd]
      exact findConn_enqueueConn_self m he
    · have hcd : c ≠ d := fun hh => hd (hh ▸ hc2)
      cases hfd : findConn conns d with
      | none =>
        simp only [roomFanout, hfd]
        obtain ⟨ha, hb⟩ := ih conns c e hnd2 hc2 he hclosed hlen
        exact ⟨List.mem_cons_of_mem _ ha, hb⟩
      | some ed =>
        by_cases hcond : ed.closed = false ∧ ed.send.length < sendCap
        · simp only [roomFanout, hfd, if_pos hcond]
          have he2 : findConn (enqueueConn m d conns) c = some e := by
            rw [findConn_enqueueConn_ne m conns hcd]
            exact he
          obtain ⟨ha, hb⟩ := ih _ c e hnd2 hc2 he2 hclosed hlen
          exact ⟨List.mem_cons_of_mem _ ha, hb⟩
        · simp only [roomFanout, hfd, if_neg hcond]
          have he2 : findConn (closeConn d conns) c = some e := by
            rw [findConn_closeConn_ne conns hcd]
            exact he
          exact ih _ c e hnd2 hc2 he2 hclosed hlen

theorem roomFanout_drop (m : Message) :
    ∀ (cs : List Client) (conns : List Conn) (c : Client) (e : Conn), cs.Nodup →
      c ∈ cs → findConn conns c = some e → (e.closed = true ∨ sendCap ≤ e.send.length) →
      c ∉ (roomFanout m cs conns).1 ∧
        findConn (roomFanout m cs conns).2 c =
          some { e with closed := true, closes := e.closes + 1 } := by
  intro cs
  induction cs with
  | nil => intro conns c e _ hc; simp at hc
  | cons d cs ih =>
    intro conns c e hnd hc he hbad
    obtain ⟨hd, hnd2⟩ := List.nodup_cons.mp hnd
    rcases List.mem_cons.mp hc with rfl | hc2
    · have hcond : ¬(e.closed = false ∧ e.send.length < sendCap) := by
        rcases hbad with hb | hb
        · simp [hb]
        · simp [Nat.not_lt.mpr hb]
      simp only [roomFanout, he, if_neg hcond]
      constructor
      · intro hmem
        exact hd ((roomFanout_fst_sublist m cs _).subset hmem)
      · rw [roomFanout_findConn_notmem m cs _ c hd]
        exact findConn_closeConn_self he
    · have hcd : c ≠ d := fun hh => hd (hh ▸ hc2)
      cases hfd : findConn conns d with
      | none =>
        simp only [roomFanout, hfd]
        obtain ⟨ha, hb⟩ := ih conns c e hnd2 hc2 he hbad
        exact ⟨fun hh => ha (by rcases List.mem_cons.mp hh with h1 | h1; exact absurd h1 hcd; exact h1), hb⟩
      | some ed =>
        by_cases hcond : ed.closed = false ∧ ed.send.length < sendCap
        · simp only [roomFanout, hfd, if_pos hcond]
          have he2 : findConn (enqueueConn m d conns) c = some e := by
            rw [findConn_enqueueConn_ne m conns hcd]
            exact he
          obtain ⟨ha, hb⟩ := ih _ c e hnd2 hc2 he2 hbad
          exact ⟨fun hh => ha (by rcases List.mem_cons.mp hh with h1 | h1; exact absurd h1 hcd; exact h1), hb⟩
        · simp only [roomFanout, hfd, if_neg hcond]
          have he2 : findConn (closeConn d conns) c = some e := by
            rw [findConn_closeConn_ne conns hcd]
            exact he
          exact ih _ c e hnd2 hc2 he2 hbad

/-! Section: Claim C6: per-room FIFO ordering -/

theorem roomFanout_survivor (m : Message) {cs : List Client} {conns : List Conn}
    {c : Client} {e : Conn} (hnd : cs.Nodup)
    (hmem : c ∈ (roomFanout m cs conns).1) (he : findConn conns c = some e) :
    findConn (roomFanout m cs conns).2 c = some { e with send := e.send ++ [m] } := by
  have hc : c ∈ cs := (roomFanout_fst_sublist m cs conns).subset hmem
  by_cases hcond : e.closed = false ∧ e.send.length < sendCap
  · exact (roomFanout_enqueue m cs conns c e hnd hc he hcond.1 hcond.2).2
  · have hbad : e.closed = true ∨ sendCap ≤ e.send.length := by
      by_cases h1 : e.closed = true
      · exact Or.inl h1
      · refine Or.inr (Nat.le_of_not_lt ?_)
        intro h2
        exact hcond ⟨Bool.eq_false_iff.mpr (by simpa using h1), h2⟩
    exact absurd hmem (roomFanout_drop m cs conns c e hnd hc he hbad).1

theorem roomRunList_fst_sublist :
    ∀ (ms : List Message) (cs : List Client) (conns : List Conn),
      List.Sublist (roomRunList cs conns ms).1 cs := by
  intro ms
  induction ms with
  | nil => intro cs conns; simp [roomRunList]
  | cons m ms ih =>
    intro cs conns
    simp only [roomRunList]
    exact (ih _ _).trans (roomFanout_fst_sublist m cs conns)

theorem roomRunList_survivor :
    ∀ (ms : List Message) (cs : List Client) (conns : List Conn) (c : Client) (e : Conn),
      cs.Nodup → c ∈ (roomRunList cs conns ms).1 → findConn conns c = some e →
      findConn (roomRunList cs conns ms).2 c = some { e with send := e.send ++ ms } := by
  intro ms
  induction ms with
  | nil =>
    intro cs conns c e _ _ he
    simp only [roomRunList, List.append_nil]
    exact he
  | cons m ms ih =>
    intro cs conns c e hnd hc he
    simp only [roomRunList] at hc ⊢
    have hc1 : c ∈ (roomFanout m cs conns).1 := (roomRunList_fst_sublist ms _ _).subset hc
    have he1 := roomFanout_survivor m hnd hc1 he
    have hnd1 : (roomFanout m cs conns).1.Nodup :=
      List.Nodup.sublist (roomFanout_fst_sublist m cs conns) hnd
    have hfin := ih _ _ c _ hnd1 hc he1
    simpa using hfin

/-- Claim C6 (per-room FIFO): run the room's fan-out loop over the queued
batch `l1 ++ m1 :: l2 ++ [m2]` (so `m1` was enqueued to the room before
`m2`); any member still in the member set after both are processed has had
the whole batch appended to its outbound queue in exactly that order — in
particular it received `m1` strictly before `m2`. -/
theorem room_fifo (l1 l2 : List Message) (m1 m2 : Message) (cs : List Client)
    (conns : List Conn) (c : Client) (e : Conn) (hnd : cs.Nodup)
    (he : findConn conns c = some e)
    (hc : c ∈ (roomRunList cs conns (l1 ++ m1 :: l2 ++ [m2])).1) :
    findConn (roomRunList cs conns (l1 ++ m1 :: l2 ++ [m2])).2 c =
      some { e with send := e.send ++ (l1 ++ m1 :: l2 ++ [m2]) } :=
  roomRunList_survivor (l1 ++ m1 :: l2 ++ [m2]) cs conns c e hnd hc he

/-- A fresh channel state for the sample client. -/
def eT5 : Conn := { client := cT5, send := [], closed := false, closes := 0 }

/-- Two sample tenant-5 messages. -/
def msg1 : Message :=
  { ty := .notification, data := some (.raw 1), UserID := 0, TenantID := 5,
    Timestamp := 1, MessageID := 1 }

/-- Second sample message. -/
def msg2 : Message :=
  { ty := .taskUpdate, data := some (.raw 2), UserID := 0, TenantID := 5,
    Timestamp := 2, MessageID := 2 }

/-- Witness for C6 at a concrete room state and two concrete messages. -/
theorem room_fifo_witness :
    findConn (roomRunList [cT5] [eT5] ([] ++ msg1 :: [] ++ [msg2])).2 cT5 =
      some { eT5 with send := eT5.send ++ ([] ++ msg1 :: [] ++ [msg2]) } :=
  room_fifo [] [] msg1 msg2 [cT5] [eT5] cT5 eT5 (by decide) (by decide) (by decide)

/-! Section: Claim C7: registration postcondition -/

theorem mem_insertClient_self (c : Client) (l : List Client) : c ∈ insertClient c l := by
  unfold insertClient
  by_cases h : c ∈ l <;> simp [h]

/-- Claim C7 (registration postcondition): processing a register request for
`c` creates the room for `c.TenantID` if absent, adds `c` to its member set,
and appends exactly one synthesized `UserJoined` message (origin user and
tenant of `c`, payload the user id and name snapshot) to that room's
broadcast queue. -/
theorem register_postcondition (h : Hub) (c : Client) (now mid : Nat) :
    findRoom (registerClient h c now mid).tenants c.TenantID =
      some (match findRoom h.tenants c.TenantID with
        | some r => { TenantID := r.TenantID, clients := insertClient c r.clients,
                      broadcast := r.broadcast ++ [joinMessage c now mid] }
        | none => { TenantID := c.TenantID, clients := insertClient c [],
                    broadcast := [joinMessage c now mid] }) ∧
    c ∈ insertClient c (match findRoom h.tenants c.TenantID with
        | some r => r.clients
        | none => []) := by
  refine ⟨?_, mem_insertClient_self c _⟩
  cases hfind : findRoom h.tenants c.TenantID with
  | some r => simp [registerClient, hfind, findRoom_setRoom_self]
  | none => simp [registerClient, hfind, findRoom_setRoom_self]

/-! Section: Claim C8: idempotent teardown -/

/-- Claim C8 (idempotent teardown): a second unregister of the same client is
a no-op — the resulting state (including the member set, the close counter of
the client's channel, and the room's queued `UserLeft` messages) is exactly
the state after the first unregister, so there is no second removal, no
second channel close, and no duplicate `UserLeft` broadcast; and an unregister
of a client that is already out of its room's member set (e.g. dropped by the
slow-consumer path) changes nothing at all. -/
theorem unregister_idempotent (h : Hub) (c : Client) (n1 i1 n2 i2 : Nat) :
    unregisterClient (unregisterClient h c n1 i1) c n2 i2 = unregisterClient h c n1 i1 ∧
    (c ∉ membersOf h c.TenantID → unregisterClient h c n1 i1 = h) := by
  constructor
  · cases hfind : findRoom h.tenants c.TenantID with
    | none => simp [unregisterClient, hfind]
    | some r =>
      by_cases hmem : c ∈ r.clients
      · by_cases hempty : removeClient c r.clients = []
        · simp [unregisterClient, hfind, hmem, hempty, findRoom_eraseRoom_self]
        · simp [unregisterClient, hfind, hmem, hempty, findRoom_setRoom_self,
            not_mem_removeClient_self]
      · simp [unregisterClient, hfind, hmem]
  · intro hnm
    cases hfind : findRoom h.tenants c.TenantID with
    | none => simp [unregisterClient, hfind]
    | some r =>
      have hmem : c ∉ r.clients := by
        unfold membersOf at hnm
        rw [hfind] at hnm
        exact hnm
      simp [unregisterClient, hfind, hmem]

/-- Witness for C8: unregistering a client that was never a member leaves the
fresh hub unchanged. -/
theorem unregister_idempotent_witness : unregisterClient initHub cT5 1 1 = initHub :=
  (unregister_idempotent initHub cT5 1 1 2 2).2 (by decide)

/-! Section: Claim C3: room lifecycle -/

/-- Operations processed by the hub dispatcher loop or a client read pump
(everything except the two paths that drop slow consumers: the room fan-out
loop and the synchronous targeted send). -/
def isDispatcherOp : Op → Bool
  | .register _ _ _ => true
  | .unregister _ _ _ => true
  | .hubBroadcast _ => true
  | .toTenant _ _ _ _ _ => true
  | .frame _ _ _ _ => true
  | .toUser _ _ _ _ _ _ => false
  | .roomStep _ => false

/-- Every room present in the hub's map has at least one member. -/
def RoomsNonempty (h : Hub) : Prop := ∀ p ∈ h.tenants, p.2.clients ≠ []

theorem registerClient_nonempty {h : Hub} {c : Client} {now mid : Nat}
    (hne : RoomsNonempty h) : RoomsNonempty (registerClient h c now mid) := by
  intro p hp
  unfold registerClient at hp
  rcases mem_setRoom hp with rfl | hmem
  · exact List.ne_nil_of_mem (mem_insertClient_self c _)
  · exact hne p hmem

theorem unregisterClient_nonempty {h : Hub} {c : Client} {now mid : Nat}
    (hne : RoomsNonempty h) : RoomsNonempty (unregisterClient h c now mid) := by
  unfold unregisterClient
  cases hfind : findRoom h.tenants c.TenantID with
  | none => exact hne
  | some r =>
    by_cases hmem : c ∈ r.clients
    · by_cases hempty : removeClient c r.clients = []
      · simp only [if_pos hmem, if_pos hempty]
        intro p hp
        exact hne p (mem_eraseRoom hp)
      · simp only [if_pos hmem, if_neg hempty]
        intro p hp
        rcases mem_setRoom hp with rfl | hmem2
        · exact hempty
        · exact hne p hmem2
    · simp only [if_neg hmem]
      exact hne

theorem broadcastMessage_nonempty {h : Hub} {m : Message}
    (hne : RoomsNonempty h) : RoomsNonempty (broadcastMessage h m) := by
  unfold broadcastMessage
  cases hfind : findRoom h.tenants m.TenantID with
  | none => exact hne
  | some r =>
    by_cases hlen : r.broadcast.length < roomCap
    · simp only [if_pos hlen]
      intro p hp
      rcases mem_setRoom hp with rfl | hmem
      · exact hne (m.TenantID, r) (findRoom_mem hfind)
      · exact hne p hmem
    · simp only [if_neg hlen]
      exact hne

theorem trySendSelf_tenants (h : Hub) (c : Client) (m : Message) :
    (trySendSelf h c m).tenants = h.tenants := by
  unfold trySendSelf
  cases findConn h.conns c with
  | none => rfl
  | some e =>
    by_cases hcond : e.closed = false ∧ e.send.length < sendCap
    · simp [if_pos hcond]
    · simp [if_neg hcond]

theorem clientFrame_nonempty {h : Hub} {c : Client} {f : Frame} {now mid : Nat}
    (hne : RoomsNonempty h) : RoomsNonempty (clientFrame h c f now mid) := by
  unfold clientFrame
  cases processFrame c f now mid with
  | toHub m => exact broadcastMessage_nonempty hne
  | pongReply m =>
    intro p hp
    rw [trySendSelf_tenants] at hp
    exact hne p hp
  | errorReply m =>
    intro p hp
    rw [trySendSelf_tenants] at hp
    exact hne p hp

theorem step_nonempty {h : Hub} {op : Op} (hop : isDispatcherOp op = true)
    (hne : RoomsNonempty h) : RoomsNonempty (step h op) := by
  cases op with
  | register c now mid => exact registerClient_nonempty hne
  | unregister c now mid => exact unregisterClient_nonempty hne
  | hubBroadcast m => exact broadcastMessage_nonempty hne
  | toTenant tid mt d now mid => exact broadcastMessage_nonempty hne
  | toUser tid uid mt d now mid => simp [isDispatcherOp] at hop
  | frame c f now mid => exact clientFrame_nonempty hne
  | roomStep tid => simp [isDispatcherOp] at hop

theorem runOps_nonempty :
    ∀ (ops : List Op) (h : Hub), (∀ op ∈ ops, isDispatcherOp op = true) →
      RoomsNonempty h → RoomsNonempty (runOps h ops) := by
  intro ops
  induction ops with
  | nil => intro h _ hne; exact hne
  | cons op ops ih =>
    intro h hops hne
    exact ih _ (fun o ho => hops o (List.mem_cons_of_mem _ ho))
      (step_nonempty (hops op (by simp)) hne)

/-- Claim C3 amended (room lifecycle): the `rooms`-map-key-iff-nonempty-member
invariant holds for every sequence made of dispatcher-processed operations
(register, unregister, hub-level broadcasts, inbound client frames): every room
present in the map has a non-empty member set, and membership is only ever
recorded inside a present map entry. It does NOT survive the two slow-consumer
drop paths (room fan-out and targeted send), which can empty a room without
deleting its map entry — see the counterexample. -/
theorem room_lifecycle_dispatcher (ops : List Op)
    (hops : ∀ op ∈ ops, isDispatcherOp op = true) :
    ∀ p ∈ (runOps initHub ops).tenants, p.2.clients ≠ [] :=
  runOps_nonempty ops initHub hops (by intro p hp; simp [initHub] at hp)

/-- The tenant-5 room as it stands right after `cT5` registers. -/
def roomAfterRegister : TenantRoom :=
  { TenantID := 5, clients := [cT5], broadcast := [joinMessage cT5 0 0] }

/-- Witness for the amended C3: after a register the single room is non-empty. -/
theorem room_lifecycle_witness : ((5 : Nat), roomAfterRegister).2.clients ≠ [] :=
  room_lifecycle_dispatcher [Op.register cT5 0 0] (by decide)
    ((5 : Nat), roomAfterRegister) (by decide)

/-- Operation sequence that overflows the sample client's outbound queue via
targeted sends: one register, then 257 `BroadcastToUser` calls — the last one
finds the queue full, closes it and removes the last member without deleting
the room from the map. -/
def overflowOps : List Op :=
  Op.register cT5 0 0 :: List.replicate 257 (Op.toUser 5 7 MessageType.notification none 1 1)

set_option maxRecDepth 40000 in
/-- Claim C3 counterexample: after the reachable sequence `overflowOps` the
rooms map still holds the key for tenant 5 although that room's member set is
empty, refuting the key-exists-iff-nonempty claim for sequences that include
slow-consumer drops. -/
theorem room_lifecycle_counterexample :
    (findRoom (runOps initHub overflowOps).tenants 5).map TenantRoom.clients = some [] := by
  decide

/-! Section: Behaviour of the targeted-send loop on a single member -/

theorem userFanout_findConn_notmem (uid : Nat) (m : Message) :
    ∀ (cs : List Client) (conns : List Conn) (c : Client), c ∉ cs →
      findConn (userFanout uid m cs conns).2 c = findConn conns c := by
  intro cs
  induction cs with
  | nil => intro conns c _; simp [userFanout]
  | cons d cs ih =>
    intro conns c hc
    have hcd : c ≠ d := fun hh => hc (by simp [hh])
    have hcs : c ∉ cs := fun hh => hc (List.mem_cons_of_mem _ hh)
    by_cases hu : d.UserID = uid
    · cases hfd : findConn conns d with
      | none => simp only [userFanout, if_pos hu, hfd]; exact ih conns c hcs
      | some ed =>
        by_cases hcond : ed.closed = false ∧ ed.send.length < sendCap
        · simp only [userFanout, if_pos hu, hfd, if_pos hcond]
          rw [ih _ c hcs]
          exact findConn_enqueueConn_ne m conns hcd
        · simp only [userFanout, if_pos hu, hfd, if_neg hcond]
          rw [ih _ c hcs]
          exact findConn_closeConn_ne conns hcd
    · simp only [userFanout, if_neg hu]
      exact ih conns c hcs

theorem userFanout_findConn_nomatch (uid : Nat) (m : Message) :
    ∀ (cs : List Client) (conns : List Conn) (c : Client), c.UserID ≠ uid →
      findConn (userFanout uid m cs conns).2 c = findConn conns c := by
  intro cs
  induction cs with
  | nil => intro conns c _; simp [userFanout]
  | cons d cs ih =>
    intro conns c hcu
    by_cases hu : d.UserID = uid
    · have hcd : c ≠ d := fun hh => hcu (hh ▸ hu)
      cases hfd : findConn conns d with
      | none => simp only [userFanout, if_pos hu, hfd]; exact ih conns c hcu
      | some ed =>
        by_cases hcond : ed.closed = false ∧ ed.send.length < sendCap
        · simp only [userFanout, if_pos hu, hfd, if_pos hcond]
          rw [ih _ c hcu]
          exact findConn_enqueueConn_ne m conns hcd
        · simp only [userFanout, if_pos hu, hfd, if_neg hcond]
          rw [ih _ c hcu]
          exact findConn_closeConn_ne conns hcd
    · simp only [userFanout, if_neg hu]
      exact ih conns c hcu

theorem userFanout_mem_nomatch (uid : Nat) (m : Message) :
    ∀ (cs : List Client) (conns : List Conn) (c : Client), c ∈ cs → c.UserID ≠ uid →
      c ∈ (userFanout uid m cs conns).1 := by
  intro cs
  induction cs with
  | nil => intro conns c hc; simp at hc
  | cons d cs ih =>
    intro conns c hc hcu
    rcases List.mem_cons.mp hc with rfl | hc2
    · simp only [userFanout, if_neg hcu]
      simp
    · by_cases hu : d.UserID = uid
      · cases hfd : findConn conns d with
        | none =>
          simp only [userFanout, if_pos hu, hfd]
          exact List.mem_cons_of_mem _ (ih conns c hc2 hcu)
        | some ed =>
          by_cases hcond : ed.closed = false ∧ ed.send.length < sendCap
          · simp only [userFanout, if_pos hu, hfd, if_pos hcond]
            exact List.mem_cons_of_mem _ (ih _ c hc2 hcu)
          · simp only [userFanout, if_pos hu, hfd, if_neg hcond]
            exact ih _ c hc2 hcu
      · simp only [userFanout, if_neg hu]
        exact List.mem_cons_of_mem _ (ih conns c hc2 hcu)

theorem userFanout_enqueue (uid : Nat) (m : Message) :
    ∀ (cs : List Client) (conns : List Conn) (c : Client) (e : Conn), cs.Nodup →
      c ∈ cs → c.UserID = uid → findConn conns c = some e →
      e.closed = false → e.send.length < sendCap →
      c ∈ (userFanout uid m cs conns).1 ∧
        findConn (userFanout uid m cs conns).2 c = some { e with send := e.send ++ [m] } := by
  intro cs
  induction cs with
  | nil => intro conns c e _ hc; simp at hc
  | cons d cs ih =>
    intro conns c e hnd hc hcu he hclosed hlen
    obtain ⟨hd, hnd2⟩ := List.nodup_cons.mp hnd
    rcases List.mem_cons.mp hc with rfl | hc2
    · simp only [userFanout, if_pos hcu, he, if_pos (And.intro hclosed hlen)]
      refine ⟨by simp, ?_⟩
      rw [userFanout_findConn_notmem uid m cs _ c hd]
      exact findConn_enqueueConn_self m he
    · have hcd : c ≠ d := fun hh => hd (hh ▸ hc2)
      by_cases hu : d.UserID = uid
      · cases hfd : findConn conns d with
        | none =>
          simp only [userFanout, if_pos hu, hfd]
          obtain ⟨ha, hb⟩ := ih conns c e hnd2 hc2 hcu he hclosed hlen
          exact ⟨List.mem_cons_of_mem _ ha, hb⟩
        | some ed =>
          by_cases hcond : ed.closed = false ∧ ed.send.length < sendCap
          · simp only [userFanout, if_pos hu, hfd, if_pos hcond]
            have he2 : findConn (enqueueConn m d conns) c = some e := by
              rw [findConn_enqueueConn_ne m conns hcd]
              exact he
            obtain ⟨ha, hb⟩ := ih _ c e hnd2 hc2 hcu he2 hclosed hlen
            exact ⟨List.mem_cons_of_mem _ ha, hb⟩
          · simp only [userFanout, if_pos hu, hfd, if_neg hcond]
            have he2 : findConn (closeConn d conns) c = some e := by
              rw [findConn_closeConn_ne conns hcd]
              exact he
            exact ih _ c e hnd2 hc2 hcu he2 hclosed hlen
      · simp only [userFanout, if_neg hu]
        obtain ⟨ha, hb⟩ := ih conns c e hnd2 hc2 hcu he hclosed hlen
        exact ⟨List.mem_cons_of_mem _ ha, hb⟩

theorem userFanout_drop (uid : Nat) (m : Message) :
    ∀ (cs : List Client) (conns : List Conn) (c : Client) (e : Conn), cs.Nodup →
      c ∈ cs → c.UserID = uid → findConn conns c = some e →
      (e.closed = true ∨ sendCap ≤ e.send.length) →
      c ∉ (userFanout uid m cs conns).1 ∧
        findConn (userFanout uid m cs conns).2 c =
          some { e with closed := true, closes := e.closes + 1 } := by
  intro cs
  induction cs with
  | nil => intro conns c e _ hc; simp at hc
  | cons d cs ih =>
    intro conns c e hnd hc hcu he hbad
    obtain ⟨hd, hnd2⟩ := List.nodup_cons.mp hnd
    rcases List.mem_cons.mp hc with rfl | hc2
    · have hcond : ¬(e.closed = false ∧ e.send.length < sendCap) := by
        rcases hbad with hb | hb
        · simp [hb]
        · simp [Nat.not_lt.mpr hb]
      simp only [userFanout, if_pos hcu, he, if_neg hcond]
      constructor
      · intro hmem
        exact hd ((userFanout_fst_sublist uid m cs _).subset hmem)
      · rw [userFanout_findConn_notmem uid m cs _ c hd]
        exact findConn_closeConn_self he
    · have hcd : c ≠ d := fun hh => hd (hh ▸ hc2)
      by_cases hu : d.UserID = uid
      · cases hfd : findConn conns d with
        | none =>
          simp only [userFanout, if_pos hu, hfd]
          obtain ⟨ha, hb⟩ := ih conns c e hnd2 hc2 hcu he hbad
          refine ⟨?_, hb⟩
          intro hh
          rcases List.mem_cons.mp hh with h1 | h1
          · exact hcd h1
          · exact ha h1
        | some ed =>
          by_cases hcond : ed.closed = false ∧ ed.send.length < sendCap
          · simp only [userFanout, if_pos hu, hfd, if_pos hcond]
            have he2 : findConn (enqueueConn m d conns) c = some e := by
              rw [findConn_enqueueConn_ne m conns hcd]
              exact he
            obtain ⟨ha, hb⟩ := ih _ c e hnd2 hc2 hcu he2 hbad
            refine ⟨?_, hb⟩
            intro hh
            rcases List.mem_cons.mp hh with h1 | h1
            · exact hcd h1
            · exact ha h1
          · simp only [userFanout, if_pos hu, hfd, if_neg hcond]
            have he2 : findConn (closeConn d conns) c = some e := by
              rw [findConn_closeConn_ne conns hcd]
              exact he
            exact ih _ c e hnd2 hc2 hcu he2 hbad
      · simp only [userFanout, if_neg hu]
        obtain ⟨ha, hb⟩ := ih conns c e hnd2 hc2 hcu he hbad
        refine ⟨?_, hb⟩
        intro hh
        rcases List.mem_cons.mp hh with h1 | h1
        · exact hcd h1
        · exact ha h1

/-! Section: Claim C5: targeted delivery -/

/-- The message `Hub.BroadcastToUser` builds for the sample call. -/
def targetedMsg (now mid : Nat) : Message :=
  { ty := .notification, data := none, UserID := 7, TenantID := 5,
    Timestamp := now, MessageID := mid }

/-- A tenant-5 room whose only member is the sample client, no queued fan-out. -/
def roomT5 : TenantRoom := { TenantID := 5, clients := [cT5], broadcast := [] }

/-- Hub holding the sample room and a fresh channel for the sample client. -/
def hubT5 : Hub := { tenants := [(5, roomT5)], conns := [eT5] }

/-- Channel state of the sample client with its queue filled to capacity. -/
def fullConn : Conn :=
  { client := cT5, send := List.replicate 256 msg1, closed := false, closes := 0 }

/-- The sample room with one message queued for fan-out. -/
def roomFull : TenantRoom := { TenantID := 5, clients := [cT5], broadcast := [msg2] }

/-- Hub where the sample client's outbound queue is completely full. -/
def fullHub : Hub := { tenants := [(5, roomFull)], conns := [fullConn] }

/-- Claim C5 amended (targeted delivery): `BroadcastToUser(tid, uid, ...)`
enqueues the stamped message onto the outbound queue of every currently
connected member of that tenant's room whose `UserID` matches and whose
outbound queue is open and below capacity; a matching member whose queue is
full is forcibly disconnected instead (queue closed, dropped from the member
set) and receives nothing; connections of any other user, and connections
outside that room — in particular every connection of every other tenant —
are left completely untouched. -/
theorem broadcast_to_user_targeted (h : Hub) (tid uid : Nat) (mt : MessageType)
    (d : Option Payload) (now mid : Nat) (r : TenantRoom)
    (hfind : findRoom h.tenants tid = some r) (hnd : r.clients.Nodup) :
    (∀ c e, c ∈ r.clients → c.UserID = uid → findConn h.conns c = some e →
      e.closed = false → e.send.length < sendCap →
      findConn (BroadcastToUser h tid uid mt d now mid).conns c =
        some { e with send := e.send ++
          [{ ty := mt, data := d, UserID := uid, TenantID := tid,
             Timestamp := now, MessageID := mid }] }) ∧
    (∀ c e, c ∈ r.clients → c.UserID = uid → findConn h.conns c = some e →
      sendCap ≤ e.send.length →
      findConn (BroadcastToUser h tid uid mt d now mid).conns c =
        some { e with closed := true, closes := e.closes + 1 } ∧
      c ∉ membersOf (BroadcastToUser h tid uid mt d now mid) tid) ∧
    (∀ c, c.UserID ≠ uid →
      findConn (BroadcastToUser h tid uid mt d now mid).conns c = findConn h.conns c) ∧
    (∀ c, c ∉ r.clients →
      findConn (BroadcastToUser h tid uid mt d now mid).conns c = findConn h.conns c) := by
  have hBU : BroadcastToUser h tid uid mt d now mid =
      { tenants := setRoom h.tenants tid
          { r with clients := (userFanout uid
              { ty := mt, data := d, UserID := uid, TenantID := tid,
                Timestamp := now, MessageID := mid } r.clients h.conns).1 },
        conns := (userFanout uid
          { ty := mt, data := d, UserID := uid, TenantID := tid,
            Timestamp := now, MessageID := mid } r.clients h.conns).2 } := by
    simp [BroadcastToUser, hfind]
  refine ⟨?_, ?_, ?_, ?_⟩
  · intro c e hc hcu he hclosed hlen
    rw [hBU]
    exact (userFanout_enqueue uid _ r.clients h.conns c e hnd hc hcu he hclosed hlen).2
  · intro c e hc hcu he hfull
    obtain ⟨ha, hb⟩ := userFanout_drop uid
      { ty := mt, data := d, UserID := uid, TenantID := tid,
        Timestamp := now, MessageID := mid } r.clients h.conns c e hnd hc hcu he
      (Or.inr hfull)
    rw [hBU]
    refine ⟨hb, ?_⟩
    unfold membersOf
    rw [findRoom_setRoom_self]
    exact ha
  · intro c hcu
    rw [hBU]
    exact userFanout_findConn_nomatch uid _ r.clients h.conns c hcu
  · intro c hc
    rw [hBU]
    exact userFanout_findConn_notmem uid _ r.clients h.conns c hc

/-- Witness for the amended C5: the open, matching, in-room sample connection
receives the targeted message. -/
theorem broadcast_to_user_witness :
    findConn (BroadcastToUser hubT5 5 7 MessageType.notification none 9 9).conns cT5 =
      some { eT5 with send := eT5.send ++ [targetedMsg 9 9] } :=
  (broadcast_to_user_targeted hubT5 5 7 MessageType.notification none 9 9 roomT5
      (by decide) (by decide)).1 cT5 eT5 (by decide) (by decide) (by decide)
    (by decide) (by decide)

set_option maxRecDepth 40000 in
/-- Claim C5 counterexample: a matching, currently connected member whose
outbound queue is full does NOT get the message enqueued (it is disconnected
instead), refuting the unconditional "enqueues onto every matching
connection". -/
theorem targeted_delivery_counterexample :
    cT5.UserID = 7 ∧
    (findRoom fullHub.tenants 5).map TenantRoom.clients = some [cT5] ∧
    targetedMsg 9 9 ∉
      (findConn (BroadcastToUser fullHub 5 7 MessageType.notification none 9 9).conns
        cT5).elim [] Conn.send ∧
    (findConn (BroadcastToUser fullHub 5 7 MessageType.notification none 9 9).conns
      cT5).map Conn.closed = some true := by
  decide

/-! Section: Claim C4: backpressure policy -/

/-- An application-level `ping` message as a client might send it. -/
def pingMsg : Message :=
  { ty := MessageType.ping, data := none, UserID := 1, TenantID := 2,
    Timestamp := 3, MessageID := 4 }

/-- Claim C4 amended (backpressure): when a producer finds a connection's
outbound queue full, the room fan-out loop and the targeted send close the
queue AND drop the connection from its room's member set; the connection's own
direct replies (`handlePing`, and identically `sendError`) only close the
queue — the member set is untouched on that path, and the removal only happens
later when the closed channel makes the pumps exit and unregister runs. -/
theorem backpressure_policy (h : Hub) (c : Client) (r : TenantRoom) (e : Conn)
    (m : Message) (ms : List Message) (mt : MessageType) (d : Option Payload)
    (now mid : Nat) (pm : Message)
    (hfind : findRoom h.tenants c.TenantID = some r) (hnd : r.clients.Nodup)
    (hmem : c ∈ r.clients) (he : findConn h.conns c = some e)
    (hfull : sendCap ≤ e.send.length) (hq : r.broadcast = m :: ms)
    (hpm : pm.ty = MessageType.ping) :
    (findConn (roomRunStep h c.TenantID).conns c =
        some { e with closed := true, closes := e.closes + 1 } ∧
      c ∉ membersOf (roomRunStep h c.TenantID) c.TenantID) ∧
    (findConn (BroadcastToUser h c.TenantID c.UserID mt d now mid).conns c =
        some { e with closed := true, closes := e.closes + 1 } ∧
      c ∉ membersOf (BroadcastToUser h c.TenantID c.UserID mt d now mid) c.TenantID) ∧
    (findConn (clientFrame h c (Frame.parsed pm) now mid).conns c =
        some { e with closed := true, closes := e.closes + 1 } ∧
      membersOf (clientFrame h c (Frame.parsed pm) now mid) c.TenantID =
        membersOf h c.TenantID) := by
  have hcond : ¬(e.closed = false ∧ e.send.length < sendCap) := by
    simp [Nat.not_lt.mpr hfull]
  refine ⟨?_, ?_, ?_⟩
  · have hRS : roomRunStep h c.TenantID =
        { tenants := setRoom h.tenants c.TenantID
            { r with clients := (roomFanout m r.clients h.conns).1, broadcast := ms },
          conns := (roomFanout m r.clients h.conns).2 } := by
      simp [roomRunStep, hfind, hq]
    obtain ⟨ha, hb⟩ :=
      roomFanout_drop m r.clients h.conns c e hnd hmem he (Or.inr hfull)
    rw [hRS]
    refine ⟨hb, ?_⟩
    unfold membersOf
    rw [findRoom_setRoom_self]
    exact ha
  · have hBU : BroadcastToUser h c.TenantID c.UserID mt d now mid =
        { tenants := setRoom h.tenants c.TenantID
            { r with clients := (userFanout c.UserID
                { ty := mt, data := d, UserID := c.UserID, TenantID := c.TenantID,
                  Timestamp := now, MessageID := mid } r.clients h.conns).1 },
          conns := (userFanout c.UserID
            { ty := mt, data := d, UserID := c.UserID, TenantID := c.TenantID,
              Timestamp := now, MessageID := mid } r.clients h.conns).2 } := by
      simp [BroadcastToUser, hfind]
    obtain ⟨ha, hb⟩ := userFanout_drop c.UserID
      { ty := mt, data := d, UserID := c.UserID, TenantID := c.TenantID,
        Timestamp := now, MessageID := mid } r.clients h.conns c e hnd hmem rfl he
      (Or.inr hfull)
    rw [hBU]
    refine ⟨hb, ?_⟩
    unfold membersOf
    rw [findRoom_setRoom_self]
    exact ha
  · have hPF : processFrame c (Frame.parsed pm) now mid =
        RouteResult.pongReply (pongMessage c now mid) := by
      simp [processFrame, stampMessage, hpm]
    have hCF : clientFrame h c (Frame.parsed pm) now mid =
        { h with conns := closeConn c h.conns } := by
      simp [clientFrame, hPF, trySendSelf, he, hcond]
    rw [hCF]
    refine ⟨findConn_closeConn_self he, rfl⟩

set_option maxRecDepth 40000 in
/-- Witness for the amended C4 at the full-queue sample hub: the fan-out and
the targeted send close and remove; the ping direct reply closes only. -/
theorem backpressure_witness :
    (findConn (roomRunStep fullHub 5).conns cT5 =
        some { fullConn with closed := true, closes := fullConn.closes + 1 } ∧
      cT5 ∉ membersOf (roomRunStep fullHub 5) 5) ∧
    (findConn (BroadcastToUser fullHub 5 7 MessageType.notification none 9 9).conns cT5 =
        some { fullConn with closed := true, closes := fullConn.closes + 1 } ∧
      cT5 ∉ membersOf (BroadcastToUser fullHub 5 7 MessageType.notification none 9 9) 5) ∧
    (findConn (clientFrame fullHub cT5 (Frame.parsed pingMsg) 9 9).conns cT5 =
        some { fullConn with closed := true, closes := fullConn.closes + 1 } ∧
      membersOf (clientFrame fullHub cT5 (Frame.parsed pingMsg) 9 9) 5 =
        membersOf fullHub 5) :=
  backpressure_policy fullHub cT5 roomFull fullConn msg2 [] MessageType.notification
    none 9 9 pingMsg (by decide) (by decide) (by decide) (by decide)
    (by decide) (by decide) (by decide)

set_option maxRecDepth 40000 in
/-- Claim C4 counterexample: the direct Pong reply finding the queue full
closes the connection's channel but does NOT remove it from the room's member
set, refuting the claim that every full-queue producer path removes the
connection from membership. -/
theorem backpressure_counterexample :
    (findConn (clientFrame fullHub cT5 (Frame.parsed pingMsg) 9 9).conns cT5).map
        Conn.closed = some true ∧
    membersOf (clientFrame fullHub cT5 (Frame.parsed pingMsg) 9 9) 5 = [cT5] := by
  decide

/-! Section: Claim C9: malformed-frame handling -/

/-- Claim C9 amended (malformed frames): while the sender's outbound queue is
open and below capacity, a frame that fails to deserialize makes the read pump
append exactly one `Error` message to the sender's own queue — the rooms and
every other connection are untouched, nothing reaches the hub broadcast
channel — and the pump carries on with the remaining frames; but if the
sender's queue is full, `sendError` instead closes the queue, forcing the
connection down (see the counterexample). -/
theorem malformed_frame_handling (h : Hub) (c : Client) (fs : List Frame) (clk : Nat)
    (e : Conn) (he : findConn h.conns c = some e) (hopen : e.closed = false)
    (hlen : e.send.length < sendCap) :
    readPumpRun c h (Frame.malformed :: fs) clk =
      readPumpRun c
        { h with conns :=
            enqueueConn (errorMessage c "Invalid message format" clk clk) c h.conns }
        fs (clk + 1) := by
  simp only [readPumpRun, clientFrame, processFrame, trySendSelf, he,
    if_pos (And.intro hopen hlen)]

/-- Witness for the amended C9 at the sample hub. -/
theorem malformed_frame_witness :
    readPumpRun cT5 hubT5 [Frame.malformed] 3 =
      readPumpRun cT5
        { hubT5 with conns :=
            enqueueConn (errorMessage cT5 "Invalid message format" 3 3) cT5 hubT5.conns }
        [] 4 :=
  malformed_frame_handling hubT5 cT5 [] 3 eT5 (by decide) (by decide) (by decide)

set_option maxRecDepth 40000 in
/-- Claim C9 counterexample: when the sender's outbound queue is already full,
the malformed-frame path closes the queue (the connection does not remain
open) and the `Error` message is never enqueued, refuting the unconditional
claim. -/
theorem malformed_frame_counterexample :
    (findConn (clientFrame fullHub cT5 Frame.malformed 3 3).conns cT5).map
        Conn.closed = some true ∧
    (findConn (clientFrame fullHub cT5 Frame.malformed 3 3).conns cT5).map
        (fun e => e.send.length) = some 256 := by
  decide

/-! Section: Claim C10: one message per frame -/

theorem drainN_all : ∀ q : List Message, drainN q.length q = (q, []) := by
  intro q
  induction q with
  | nil => rfl
  | cons m q ih => simp [drainN, ih]

/-- Claim C10 amended (frame batching): one wake-up of the write pump on a
non-empty queue emits ONE wire frame that contains the first queued message
followed by every message still queued at that moment, newline separated, and
leaves the queue empty; queue order is preserved inside the frame, and a frame
carries exactly one message only when nothing else was queued. -/
theorem write_frame_batches (m : Message) (rest : List Message) :
    writeFrame (m :: rest) = some (m :: rest, []) := by
  simp [writeFrame, drainN_all]

/-- Claim C10 counterexample: with two messages queued the write pump coalesces
both into a single frame, refuting "each queued message is written as its own
frame, never coalesced". -/
theorem one_message_per_frame_counterexample :
    writeFrame [msg1, msg2] = some ([msg1, msg2], []) := by
  decide

end Websocket
